import Mathlib

/-!
Shallow embedding of the append-only key-value store in
`src/Project-Part1/project.py`.

Modelling conventions:
* A file's content is a `List Nat` of byte values; `f.read(n)` at position
  `p` is `(file.drop p).take n` (Python reads return at most `n` bytes and
  fewer only at end of file).
* Python `bytes` values (keys, values) are `List Nat`.
* Python `str` values are `List Nat` of Unicode codepoints.
* `struct.pack(">II", a, b)` is `packU32 a ++ packU32 b`;
  `struct.unpack(">II", h)` on the 8-byte `h` is
  `(unpackU32 (h.take 4), unpackU32 (h.drop 4))`.
  `struct.pack` raises for arguments `≥ 2^32`; theorems that depend on the
  header round-trip therefore carry explicit `< 2^32` hypotheses, matching
  the spec's caller obligation.
-/

/-- `HEADER_SIZE = struct.calcsize(">II")` -/
def HEADER_SIZE : Nat := 8

/-- Big-endian 4-byte encoding of an unsigned 32-bit integer,
one half of `struct.pack(">II", ...)`. -/
def packU32 (n : Nat) : List Nat :=
  [n / 16777216 % 256, n / 65536 % 256, n / 256 % 256, n % 256]

/-- Big-endian 4-byte decoding, one half of `struct.unpack(">II", ...)`. -/
def unpackU32 : List Nat → Nat
  | [b0, b1, b2, b3] => ((b0 * 256 + b1) * 256 + b2) * 256 + b3
  | _ => 0

/-- `class SimpleIndex`: in-memory list of `(key_bytes, offset, val_len)`
entries, kept in append order. -/
structure SimpleIndex where
  entries : List (List Nat × Nat × Nat)
deriving Repr, DecidableEq

/-- `SimpleIndex()` -/
def emptyIndex : SimpleIndex := ⟨[]⟩

/-- `SimpleIndex.update`: append a new entry, never removing older ones. -/
def SimpleIndex.update (idx : SimpleIndex) (key_bytes : List Nat)
    (offset val_len : Nat) : SimpleIndex :=
  ⟨idx.entries ++ [(key_bytes, offset, val_len)]⟩

/-- `SimpleIndex.get`: scan the entries from the end (`reversed`) and return
the first `(offset, val_len)` whose key equals `key_bytes`; `None` if no
entry matches. -/
def SimpleIndex.get (idx : SimpleIndex) (key_bytes : List Nat) :
    Option (Nat × Nat) :=
  (idx.entries.reverse.find? (fun e => e.1 == key_bytes)).map
    (fun e => (e.2.1, e.2.2))

/-- Loop body of `replay_log`, reading from the not-yet-consumed suffix
`rest` of the file; `pos` is the absolute offset of `rest` in the file.
Each iteration reads an 8-byte header, `key_len` key bytes and `val_len`
value bytes, breaking on any short read, and otherwise records the entry
`(key, pos + HEADER_SIZE + key_len, val_len)`. -/
def replayAux (rest : List Nat) (pos : Nat) (idx : SimpleIndex) : SimpleIndex :=
  if h8 : (rest.take HEADER_SIZE).length < HEADER_SIZE then
    idx
  else
    let header := rest.take HEADER_SIZE
    let key_len := unpackU32 (header.take 4)
    let val_len := unpackU32 (header.drop 4)
    let key := (rest.drop HEADER_SIZE).take key_len
    if key.length < key_len then
      idx
    else
      let value := (rest.drop (HEADER_SIZE + key_len)).take val_len
      if value.length < val_len then
        idx
      else
        replayAux (rest.drop (HEADER_SIZE + key_len + val_len))
          (pos + HEADER_SIZE + key_len + val_len)
          (idx.update key (pos + HEADER_SIZE + key_len) val_len)
termination_by rest.length
decreasing_by
  simp only [List.length_drop]
  simp only [HEADER_SIZE, List.length_take] at h8 ⊢
  omega

/-- `replay_log`: scan the whole file from offset 0 and populate the index.
(A missing file behaves as the empty file.) -/
def replay_log (file : List Nat) (index : SimpleIndex) : SimpleIndex :=
  replayAux file 0 index

/-- UTF-8 encoding of a single codepoint (Python `chr(c).encode("utf-8")`
for an encodable codepoint). -/
def utf8EncodeChar (c : Nat) : List Nat :=
  if c < 128 then [c]
  else if c < 2048 then [192 + c / 64, 128 + c % 64]
  else if c < 65536 then [224 + c / 4096, 128 + c / 64 % 64, 128 + c % 64]
  else [240 + c / 262144, 128 + c / 4096 % 64, 128 + c / 64 % 64, 128 + c % 64]

/-- `s.encode("utf-8")` for a string modelled as its codepoint list. -/
def utf8Encode (s : List Nat) : List Nat :=
  (s.map utf8EncodeChar).flatten

/-- Strict UTF-8 decoding, Python `bytes.decode("utf-8")`: rejects stray
continuation bytes, overlong forms, surrogates, codepoints above `0x10FFFF`
and truncated sequences; returns the codepoint list on success. -/
def utf8Decode? : List Nat → Option (List Nat)
  | [] => some []
  | b1 :: rest =>
    if b1 < 128 then
      (utf8Decode? rest).map (b1 :: ·)
    else if b1 < 194 then
      none
    else if b1 < 224 then
      if rest.length < 1 then none
      else
        let b2 := rest.headD 0
        if 128 ≤ b2 ∧ b2 < 192 then
          (utf8Decode? rest.tail).map (((b1 - 192) * 64 + (b2 - 128)) :: ·)
        else none
    else if b1 < 240 then
      if rest.length < 2 then none
      else
        let b2 := rest.headD 0
        let b3 := rest.tail.headD 0
        if (if b1 = 224 then 160 ≤ b2 ∧ b2 < 192
            else if b1 = 237 then 128 ≤ b2 ∧ b2 < 160
            else 128 ≤ b2 ∧ b2 < 192) ∧ 128 ≤ b3 ∧ b3 < 192 then
          (utf8Decode? rest.tail.tail).map
            ((((b1 - 224) * 64 + (b2 - 128)) * 64 + (b3 - 128)) :: ·)
        else none
    else if b1 < 245 then
      if rest.length < 3 then none
      else
        let b2 := rest.headD 0
        let b3 := rest.tail.headD 0
        let b4 := rest.tail.tail.headD 0
        if (if b1 = 240 then 144 ≤ b2 ∧ b2 < 192
            else if b1 = 244 then 128 ≤ b2 ∧ b2 < 144
            else 128 ≤ b2 ∧ b2 < 192) ∧ (128 ≤ b3 ∧ b3 < 192) ∧
            (128 ≤ b4 ∧ b4 < 192) then
          (utf8Decode? rest.tail.tail.tail).map
            (((((b1 - 240) * 64 + (b2 - 128)) * 64 + (b3 - 128)) * 64
              + (b4 - 128)) :: ·)
        else none
    else none
termination_by l => l.length
decreasing_by
  all_goals simp [List.length_tail]
  all_goals omega

/-- `value.decode("latin-1")`: each byte becomes the codepoint of the same
numeric value, so the decoding is byte-preserving. -/
def latin1Decode (bs : List Nat) : List Nat := bs

/-- The display decoding in `do_get`: try UTF-8, fall back to latin-1. -/
def display (bs : List Nat) : List Nat :=
  match utf8Decode? bs with
  | some s => s
  | none => latin1Decode bs

/-- A Python `str` has codepoints below `0x110000`; it is UTF-8 encodable
iff it contains no surrogate. -/
def ValidText (s : List Nat) : Prop :=
  ∀ c ∈ s, c < 1114112 ∧ ¬(55296 ≤ c ∧ c < 57344)

instance (s : List Nat) : Decidable (ValidText s) := by
  unfold ValidText; infer_instance

/-- `do_set(f, index, key_str, value_str)` as a pure transformer of the
`(file content, index)` state. `f.tell()` on the append handle is the file
length; the record bytes (header, key, value) are appended and the index
records the offset of the value segment. -/
def do_set (file : List Nat) (index : SimpleIndex)
    (key_str value_str : List Nat) : List Nat × SimpleIndex :=
  let key := utf8Encode key_str
  let value := utf8Encode value_str
  let key_len := key.length
  let val_len := value.length
  let offset_before := file.length
  let file1 := file ++ packU32 key_len ++ packU32 val_len ++ key ++ value
  let value_offset := offset_before + HEADER_SIZE + key_len
  (file1, index.update key value_offset val_len)

/-- `rf.seek(offset); rf.read(length)` on a fresh read handle. -/
def read_value (file : List Nat) (offset length : Nat) : List Nat :=
  (file.drop offset).take length

/-- Outcome printed by `do_get`: `NOTFOUND`, or the decoded value string. -/
inductive GetResult where
  | notFound : GetResult
  | found : List Nat → GetResult
deriving Repr, DecidableEq

/-- `do_get(f, index, key_str)`: look the encoded key up in the index; if
absent print `NOTFOUND`, otherwise read `val_len` bytes at `value_offset`
from a fresh read handle and print the UTF-8 (or fallback latin-1)
decoding. -/
def do_get (file : List Nat) (index : SimpleIndex) (key_str : List Nat) :
    GetResult :=
  let key := utf8Encode key_str
  match index.get key with
  | none => .notFound
  | some (value_offset, val_len) =>
      .found (display (read_value file value_offset val_len))

/-- A sequence of `SET` commands applied in order. -/
def do_sets (st : List Nat × SimpleIndex) :
    List (List Nat × List Nat) → List Nat × SimpleIndex
  | [] => st
  | (k, v) :: ws => do_sets (do_set st.1 st.2 k v) ws

/-- The bytes `do_set` appends for one record:
`struct.pack(">II", key_len, val_len)` followed by the key and the value. -/
def encodeRecord (key value : List Nat) : List Nat :=
  packU32 key.length ++ packU32 value.length ++ key ++ value

/-- A well-formed log: the concatenation of encoded records in write order. -/
def encodeLog : List (List Nat × List Nat) → List Nat
  | [] => []
  | (k, v) :: rs => encodeRecord k v ++ encodeLog rs

/-- The index entries `replay_log` produces for the records `rs` laid out
consecutively from absolute offset `pos`: each entry holds the offset of
the record's value segment (`record start + HEADER_SIZE + key length`). -/
def replayIndexEntries (pos : Nat) :
    List (List Nat × List Nat) → List (List Nat × Nat × Nat)
  | [] => []
  | (k, v) :: rs =>
      (k, pos + HEADER_SIZE + k.length, v.length) ::
        replayIndexEntries (pos + HEADER_SIZE + k.length + v.length) rs

/-- UTF-8 encode both components of each `SET` command. -/
def encWrites (ws : List (List Nat × List Nat)) : List (List Nat × List Nat) :=
  ws.map (fun w => (utf8Encode w.1, utf8Encode w.2))

/-- Key and value lengths fit the `u32` header fields
(`struct.pack(">II", ...)` raises beyond that). -/
def RecordsOK (rs : List (List Nat × List Nat)) : Prop :=
  ∀ r ∈ rs, r.1.length < 4294967296 ∧ r.2.length < 4294967296

instance (rs : List (List Nat × List Nat)) : Decidable (RecordsOK rs) := by
  unfold RecordsOK; infer_instance

/-- The encoded key and value of every `SET` command fit the header fields. -/
def WritesOK (ws : List (List Nat × List Nat)) : Prop :=
  ∀ w ∈ ws, (utf8Encode w.1).length < 4294967296
    ∧ (utf8Encode w.2).length < 4294967296

instance (ws : List (List Nat × List Nat)) : Decidable (WritesOK ws) := by
  unfold WritesOK; infer_instance

/-- Every entry of the index points at a byte range inside the file. -/
def WF (file : List Nat) (idx : SimpleIndex) : Prop :=
  ∀ e ∈ idx.entries, e.2.1 + e.2.2 ≤ file.length

/-- Entry offsets appear in strictly increasing order, as append order
produces them. -/
def OffsetsIncreasing (idx : SimpleIndex) : Prop :=
  idx.entries.Pairwise (fun a b => a.2.1 < b.2.1)

instance (idx : SimpleIndex) : Decidable (OffsetsIncreasing idx) := by
  unfold OffsetsIncreasing
  infer_instance

/-- Keep whichever of `best` and entry `e` has the larger offset. -/
def pickHigher (best : Option (Nat × Nat)) (e : List Nat × Nat × Nat) :
    Option (Nat × Nat) :=
  match best with
  | none => some (e.2.1, e.2.2)
  | some b => if b.1 < e.2.1 then some (e.2.1, e.2.2) else some b

/-- Spec-side description of lookup (§3 "always preferring the
highest-offset entry for that key"): among the entries whose key matches,
keep the one with the largest offset. -/
def lookupHighestOffset (idx : SimpleIndex) (key_bytes : List Nat) :
    Option (Nat × Nat) :=
  (idx.entries.filter (fun e => e.1 == key_bytes)).foldl pickHigher none

/-- `do_set` with an injectable I/O failure. The body of `do_set` performs,
in order: `f.write(header)` (step 0), `f.write(key)` (step 1),
`f.write(value)` (step 2), `f.flush()` (step 3), `os.fsync` (step 4), and
only then `index.update`. `failAt n = true` makes step `n` raise: execution
stops there (`.error` carries the state at that point, the effects of the
completed earlier steps applied); otherwise `.ok` carries the final state. -/
def do_set_fallible (failAt : Nat → Bool) (file : List Nat)
    (index : SimpleIndex) (key_str value_str : List Nat) :
    Except (List Nat × SimpleIndex) (List Nat × SimpleIndex) :=
  let key := utf8Encode key_str
  let value := utf8Encode value_str
  let offset_before := file.length
  if failAt 0 then .error (file, index) else
  let file1 := file ++ packU32 key.length ++ packU32 value.length
  if failAt 1 then .error (file1, index) else
  let file2 := file1 ++ key
  if failAt 2 then .error (file2, index) else
  let file3 := file2 ++ value
  if failAt 3 then .error (file3, index) else
  if failAt 4 then .error (file3, index) else
  .ok (file3, index.update key (offset_before + HEADER_SIZE + key.length)
        value.length)

/-! ### UTF-8 round trip -/

theorem map_cons_congr (a b : Nat) (o : Option (List Nat)) (h : a = b) :
    o.map (a :: ·) = o.map (b :: ·) := by
  rw [h]

/-- Decoding picks up exactly the bytes `utf8EncodeChar` produced for an
encodable codepoint and recovers that codepoint. -/
theorem utf8Decode?_encodeChar (c : Nat) (hc : c < 1114112)
    (hs : ¬(55296 ≤ c ∧ c < 57344)) (rest : List Nat) :
    utf8Decode? (utf8EncodeChar c ++ rest) = (utf8Decode? rest).map (c :: ·) := by
  by_cases h1 : c < 128
  · simp [utf8EncodeChar, h1, utf8Decode?]
  · by_cases h2 : c < 2048
    · have e1 : ¬(192 + c / 64 < 128) := by omega
      have e2 : ¬(192 + c / 64 < 194) := by omega
      have e3 : 192 + c / 64 < 224 := by omega
      have e4 : 128 ≤ 128 + c % 64 := by omega
      have e5 : 128 + c % 64 < 192 := by omega
      simp [utf8EncodeChar, h1, h2, utf8Decode?, e1, e2, e3, e4, e5]
      exact map_cons_congr _ _ _ (by omega)
    · by_cases h3 : c < 65536
      · have e1 : ¬(224 + c / 4096 < 128) := by omega
        have e2 : ¬(224 + c / 4096 < 194) := by omega
        have e3 : ¬(224 + c / 4096 < 224) := by omega
        have e4 : 224 + c / 4096 < 240 := by omega
        have e5 : 128 ≤ 128 + c % 64 := by omega
        have e6 : 128 + c % 64 < 192 := by omega
        by_cases hA : c < 4096
        · have hb1 : 224 + c / 4096 = 224 := by omega
          have hb2a : 160 ≤ 128 + c / 64 % 64 := by omega
          have hb2b : 128 + c / 64 % 64 < 192 := by omega
          simp [utf8EncodeChar, h1, h2, h3, utf8Decode?, e1, e2, e3, e4, e5,
            e6, hb1, hb2a, hb2b]
          rw [if_neg (by omega)]
          exact map_cons_congr _ _ _ (by omega)
        · by_cases hB : c / 4096 = 13
          · have hb1 : 224 + c / 4096 = 237 := by omega
            have hb2a : 128 ≤ 128 + c / 64 % 64 := by omega
            have hb2b : 128 + c / 64 % 64 < 160 := by omega
            simp [utf8EncodeChar, h1, h2, h3, utf8Decode?, e1, e2, e3, e4,
              e5, e6, hb1, hb2a, hb2b]
            rw [if_neg (by omega)]
            exact map_cons_congr _ _ _ (by omega)
          · have hb1a : ¬(224 + c / 4096 = 224) := by omega
            have hb1b : ¬(224 + c / 4096 = 237) := by omega
            have hb2a : 128 ≤ 128 + c / 64 % 64 := by omega
            have hb2b : 128 + c / 64 % 64 < 192 := by omega
            simp [utf8EncodeChar, h1, h2, h3, utf8Decode?, e1, e2, e3, e4,
              e5, e6, hb1a, hb1b, hb2a, hb2b]
            rw [if_neg (by omega)]
            exact map_cons_congr _ _ _ (by omega)
      · have e1 : ¬(240 + c / 262144 < 128) := by omega
        have e2 : ¬(240 + c / 262144 < 194) := by omega
        have e3 : ¬(240 + c / 262144 < 224) := by omega
        have e4 : ¬(240 + c / 262144 < 240) := by omega
        have e5 : 240 + c / 262144 < 245 := by omega
        have e6 : 128 ≤ 128 + c / 64 % 64 := by omega
        have e7 : 128 + c / 64 % 64 < 192 := by omega
        have e8 : 128 ≤ 128 + c % 64 := by omega
        have e9 : 128 + c % 64 < 192 := by omega
        by_cases hA : c < 262144
        · have hb1 : 240 + c / 262144 = 240 := by omega
          have hb2a : 144 ≤ 128 + c / 4096 % 64 := by omega
          have hb2b : 128 + c / 4096 % 64 < 192 := by omega
          simp [utf8EncodeChar, h1, h2, h3, utf8Decode?, e1, e2, e3, e4, e5,
            e6, e7, e8, e9, hb1, hb2a, hb2b]
          rw [if_neg (by omega)]
          exact map_cons_congr _ _ _ (by omega)
        · by_cases hB : c / 262144 = 4
          · have hb1 : 240 + c / 262144 = 244 := by omega
            have hb2a : 128 ≤ 128 + c / 4096 % 64 := by omega
            have hb2b : 128 + c / 4096 % 64 < 144 := by omega
            simp [utf8EncodeChar, h1, h2, h3, utf8Decode?, e1, e2, e3, e4,
              e5, e6, e7, e8, e9, hb1, hb2a, hb2b]
            rw [if_neg (by omega)]
            exact map_cons_congr _ _ _ (by omega)
          · have hb1a : ¬(240 + c / 262144 = 240) := by omega
            have hb1b : ¬(240 + c / 262144 = 244) := by omega
            have hb2a : 128 ≤ 128 + c / 4096 % 64 := by omega
            have hb2b : 128 + c / 4096 % 64 < 192 := by omega
            simp [utf8EncodeChar, h1, h2, h3, utf8Decode?, e1, e2, e3, e4,
              e5, e6, e7, e8, e9, hb1a, hb1b, hb2a, hb2b]
            rw [if_neg (by omega)]
            exact map_cons_congr _ _ _ (by omega)

theorem utf8Decode?_utf8Encode : ∀ (s : List Nat), ValidText s →
    utf8Decode? (utf8Encode s) = some s
  | [], _ => by simp [utf8Encode, utf8Decode?]
  | c :: s, h => by
      have hc := h c (List.mem_cons_self _ _)
      have hs' : ValidText s := fun x hx => h x (List.mem_cons_of_mem _ hx)
      rw [utf8Encode, List.map_cons, List.flatten_cons,
        utf8Decode?_encodeChar c hc.1 hc.2,
        show (s.map utf8EncodeChar).flatten = utf8Encode s from rfl,
        utf8Decode?_utf8Encode s hs']
      rfl

theorem display_utf8Encode (s : List Nat) (h : ValidText s) :
    display (utf8Encode s) = s := by
  rw [display, utf8Decode?_utf8Encode s h]

theorem display_of_invalid (bs : List Nat) (h : utf8Decode? bs = none) :
    display bs = bs := by
  rw [display, h, latin1Decode]

/-! ### Basic facts about the codec -/

theorem length_packU32 (n : Nat) : (packU32 n).length = 4 := rfl

theorem unpackU32_packU32 (n : Nat) (h : n < 4294967296) :
    unpackU32 (packU32 n) = n := by
  simp only [packU32, unpackU32]
  omega

theorem encodeRecord_length (k v : List Nat) :
    (encodeRecord k v).length = HEADER_SIZE + k.length + v.length := by
  simp [encodeRecord, packU32, HEADER_SIZE]
  omega

/-! ### Unfolding lemmas for `replayAux` -/

theorem replayAux_short (rest : List Nat) (pos : Nat) (idx : SimpleIndex)
    (h : rest.length < HEADER_SIZE) : replayAux rest pos idx = idx := by
  rw [replayAux]
  rw [dif_pos]
  simp only [List.length_take]
  omega

theorem replayAux_nil (pos : Nat) (idx : SimpleIndex) :
    replayAux [] pos idx = idx :=
  replayAux_short [] pos idx (by simp [HEADER_SIZE])

theorem replayAux_record (key value rest : List Nat) (pos : Nat)
    (idx : SimpleIndex) (hk : key.length < 4294967296)
    (hv : value.length < 4294967296) :
    replayAux (encodeRecord key value ++ rest) pos idx =
      replayAux rest (pos + HEADER_SIZE + key.length + value.length)
        (idx.update key (pos + HEADER_SIZE + key.length) value.length) := by
  have hassoc : encodeRecord key value ++ rest =
      (packU32 key.length ++ packU32 value.length) ++ (key ++ (value ++ rest)) := by
    simp [encodeRecord]
  have hlen8 : (packU32 key.length ++ packU32 value.length).length = HEADER_SIZE := rfl
  have htake8 : (encodeRecord key value ++ rest).take HEADER_SIZE =
      packU32 key.length ++ packU32 value.length := by
    rw [hassoc, ← hlen8, List.take_left]
  have hdrop8 : (encodeRecord key value ++ rest).drop HEADER_SIZE =
      key ++ (value ++ rest) := by
    rw [hassoc, ← hlen8, List.drop_left]
  have htake4 : (packU32 key.length ++ packU32 value.length).take 4 =
      packU32 key.length := by
    rw [show (4 : Nat) = (packU32 key.length).length from rfl, List.take_left]
  have hdrop4 : (packU32 key.length ++ packU32 value.length).drop 4 =
      packU32 value.length := by
    rw [show (4 : Nat) = (packU32 key.length).length from rfl, List.drop_left]
  have hkeyread : ((encodeRecord key value ++ rest).drop HEADER_SIZE).take key.length
      = key := by
    rw [hdrop8, List.take_append_of_le_length (Nat.le_refl _), List.take_length]
  have hdropk : (encodeRecord key value ++ rest).drop (HEADER_SIZE + key.length) =
      value ++ rest := by
    rw [← List.drop_drop, hdrop8, List.drop_left]
  have hvalread : ((encodeRecord key value ++ rest).drop
      (HEADER_SIZE + key.length)).take value.length = value := by
    rw [hdropk, List.take_append_of_le_length (Nat.le_refl _), List.take_length]
  have hdropall : (encodeRecord key value ++ rest).drop
      (HEADER_SIZE + key.length + value.length) = rest := by
    rw [← List.drop_drop, hdropk, List.drop_left]
  rw [replayAux]
  rw [dif_neg (by rw [htake8, hlen8]; omega)]
  simp only [htake8, htake4, hdrop4, unpackU32_packU32 _ hk, unpackU32_packU32 _ hv,
    hkeyread, hvalread, hdropall]
  rw [if_neg (by omega), if_neg (by omega)]

theorem replayAux_encodeLog : ∀ (rs : List (List Nat × List Nat)),
    RecordsOK rs → ∀ (rest : List Nat) (pos : Nat) (idx : SimpleIndex),
      replayAux (encodeLog rs ++ rest) pos idx =
        replayAux rest (pos + (encodeLog rs).length)
          ⟨idx.entries ++ replayIndexEntries pos rs⟩
  | [], _, rest, pos, idx => by
      simp [encodeLog, replayIndexEntries]
  | (k, v) :: rs, h, rest, pos, idx => by
      have hk := (h _ (List.mem_cons_self _ _)).1
      have hv := (h _ (List.mem_cons_self _ _)).2
      have h' : RecordsOK rs := fun r hr => h r (List.mem_cons_of_mem _ hr)
      rw [encodeLog, List.append_assoc, replayAux_record _ _ _ _ _ hk hv,
        replayAux_encodeLog rs h' rest _ _]
      have hpos : pos + HEADER_SIZE + k.length + v.length + (encodeLog rs).length
          = pos + (encodeLog ((k, v) :: rs)).length := by
        simp [encodeLog, encodeRecord_length]
        omega
      have hent : (SimpleIndex.update ⟨idx.entries⟩ k (pos + HEADER_SIZE + k.length)
            v.length).entries
          ++ replayIndexEntries (pos + HEADER_SIZE + k.length + v.length) rs
          = idx.entries ++ replayIndexEntries pos ((k, v) :: rs) := by
        simp [SimpleIndex.update, replayIndexEntries]
      rw [hpos, hent, encodeLog]

theorem replay_log_encodeLog (rs : List (List Nat × List Nat))
    (h : RecordsOK rs) (idx : SimpleIndex) :
    replay_log (encodeLog rs) idx = ⟨idx.entries ++ replayIndexEntries 0 rs⟩ := by
  have h0 := replayAux_encodeLog rs h [] 0 idx
  simpa [replay_log, replayAux_nil] using h0

/-- A strict prefix of an encoded record replays to nothing: whichever of
the three reads (header, key, value) comes up short, the loop stops without
recording an entry. -/
theorem replayAux_truncated (key value : List Nat) (t pos : Nat)
    (idx : SimpleIndex) (hk : key.length < 4294967296)
    (hv : value.length < 4294967296)
    (ht : t < (encodeRecord key value).length) :
    replayAux ((encodeRecord key value).take t) pos idx = idx := by
  have hreclen := encodeRecord_length key value
  by_cases h1 : t < HEADER_SIZE
  · exact replayAux_short _ _ _ (by simp [List.length_take]; omega)
  · have hassoc : encodeRecord key value =
        (packU32 key.length ++ packU32 value.length) ++ (key ++ value) := by
      simp [encodeRecord]
    have hlen8 : (packU32 key.length ++ packU32 value.length).length = HEADER_SIZE := rfl
    have htake8 : ((encodeRecord key value).take t).take HEADER_SIZE =
        packU32 key.length ++ packU32 value.length := by
      rw [List.take_take, show HEADER_SIZE ⊓ t = HEADER_SIZE from by omega,
        hassoc, ← hlen8, List.take_left]
    have htake4 : (packU32 key.length ++ packU32 value.length).take 4 =
        packU32 key.length := by
      rw [show (4 : Nat) = (packU32 key.length).length from rfl, List.take_left]
    have hdrop4 : (packU32 key.length ++ packU32 value.length).drop 4 =
        packU32 value.length := by
      rw [show (4 : Nat) = (packU32 key.length).length from rfl, List.drop_left]
    have hdrop8 : ((encodeRecord key value).take t).drop HEADER_SIZE =
        (key ++ value).take (t - HEADER_SIZE) := by
      rw [List.drop_take, hassoc, ← hlen8, List.drop_left]
    rw [replayAux]
    rw [dif_neg (by rw [htake8, hlen8]; omega)]
    simp only [htake8, htake4, hdrop4, unpackU32_packU32 _ hk,
      unpackU32_packU32 _ hv, hdrop8]
    by_cases h2 : t - HEADER_SIZE < key.length
    · rw [if_pos]
      rw [List.length_take, List.length_take, List.length_append]
      omega
    · have hkeyread : ((key ++ value).take (t - HEADER_SIZE)).take key.length
          = key := by
        rw [List.take_take, show key.length ⊓ (t - HEADER_SIZE) = key.length
          from by omega, List.take_append_of_le_length (Nat.le_refl _),
          List.take_length]
      rw [if_neg (by rw [hkeyread]; omega)]
      have hdropkey : ((encodeRecord key value).take t).drop
          (HEADER_SIZE + key.length) = value.take (t - HEADER_SIZE - key.length) := by
        rw [← List.drop_drop, hdrop8, List.drop_take,
          show (key ++ value).drop key.length = value from by
            rw [show key.length = (key).length from rfl, List.drop_left]]
      rw [hkeyread, hdropkey, if_pos]
      rw [List.length_take, List.length_take]
      omega

theorem replayAux_step (rest : List Nat) (pos : Nat) (idx : SimpleIndex)
    (kl vl : Nat)
    (hkl : kl = unpackU32 ((rest.take HEADER_SIZE).take 4))
    (hvl : vl = unpackU32 ((rest.take HEADER_SIZE).drop 4))
    (htot : HEADER_SIZE + kl + vl ≤ rest.length) :
    replayAux rest pos idx =
      replayAux (rest.drop (HEADER_SIZE + kl + vl)) (pos + HEADER_SIZE + kl + vl)
        (idx.update ((rest.drop HEADER_SIZE).take kl) (pos + HEADER_SIZE + kl)
          vl) := by
  subst hkl hvl
  rw [replayAux, dif_neg (by simp only [List.length_take]; omega)]
  dsimp only
  rw [if_neg (by simp only [List.length_take, List.length_drop]; omega),
    if_neg (by simp only [List.length_take, List.length_drop]; omega)]

theorem replayAux_stop_key (rest : List Nat) (pos : Nat) (idx : SimpleIndex)
    (h1 : HEADER_SIZE ≤ rest.length)
    (h2 : ((rest.drop HEADER_SIZE).take
        (unpackU32 ((rest.take HEADER_SIZE).take 4))).length
      < unpackU32 ((rest.take HEADER_SIZE).take 4)) :
    replayAux rest pos idx = idx := by
  rw [replayAux, dif_neg (by simp [List.length_take]; omega)]
  dsimp only
  rw [if_pos h2]

theorem replayAux_stop_val (rest : List Nat) (pos : Nat) (idx : SimpleIndex)
    (h1 : HEADER_SIZE ≤ rest.length)
    (h2 : ¬((rest.drop HEADER_SIZE).take
        (unpackU32 ((rest.take HEADER_SIZE).take 4))).length
      < unpackU32 ((rest.take HEADER_SIZE).take 4))
    (h3 : ((rest.drop (HEADER_SIZE + unpackU32 ((rest.take HEADER_SIZE).take 4))).take
        (unpackU32 ((rest.take HEADER_SIZE).drop 4))).length
      < unpackU32 ((rest.take HEADER_SIZE).drop 4)) :
    replayAux rest pos idx = idx := by
  rw [replayAux, dif_neg (by simp [List.length_take]; omega)]
  dsimp only
  rw [if_neg h2, if_pos h3]

/-- `replayAux` only ever appends entries: running it from any starting
index appends the same entry list it would produce from the empty index. -/
theorem replayAuxEntriesBounded : ∀ (n : Nat) (rest : List Nat),
    rest.length ≤ n → ∀ (pos : Nat) (idx : SimpleIndex),
    (replayAux rest pos idx).entries =
      idx.entries ++ (replayAux rest pos emptyIndex).entries
  | n, rest, hn, pos, idx => by
    by_cases hshort : rest.length < HEADER_SIZE
    · rw [replayAux_short _ _ _ hshort, replayAux_short _ _ _ hshort]
      simp [emptyIndex]
    · by_cases hk : ((rest.drop HEADER_SIZE).take
          (unpackU32 ((rest.take HEADER_SIZE).take 4))).length
        < unpackU32 ((rest.take HEADER_SIZE).take 4)
      · rw [replayAux_stop_key _ _ _ (by omega) hk,
          replayAux_stop_key _ _ _ (by omega) hk]
        simp [emptyIndex]
      · by_cases hv : ((rest.drop (HEADER_SIZE
              + unpackU32 ((rest.take HEADER_SIZE).take 4))).take
            (unpackU32 ((rest.take HEADER_SIZE).drop 4))).length
          < unpackU32 ((rest.take HEADER_SIZE).drop 4)
        · rw [replayAux_stop_val _ _ _ (by omega) hk hv,
            replayAux_stop_val _ _ _ (by omega) hk hv]
          simp [emptyIndex]
        · have htot : HEADER_SIZE + unpackU32 ((rest.take HEADER_SIZE).take 4)
              + unpackU32 ((rest.take HEADER_SIZE).drop 4) ≤ rest.length := by
            simp only [List.length_take, List.length_drop] at hk hv
            omega
          have hrec : (rest.drop (HEADER_SIZE
              + unpackU32 ((rest.take HEADER_SIZE).take 4)
              + unpackU32 ((rest.take HEADER_SIZE).drop 4))).length ≤ n - 1 := by
            simp only [List.length_drop, HEADER_SIZE] at htot hshort hn ⊢
            omega
          rw [replayAux_step rest pos idx _ _ rfl rfl htot,
            replayAux_step rest pos emptyIndex _ _ rfl rfl htot,
            replayAuxEntriesBounded (n - 1) _ hrec _
              (idx.update ((rest.drop HEADER_SIZE).take
                  (unpackU32 ((rest.take HEADER_SIZE).take 4)))
                (pos + HEADER_SIZE + unpackU32 ((rest.take HEADER_SIZE).take 4))
                (unpackU32 ((rest.take HEADER_SIZE).drop 4))),
            replayAuxEntriesBounded (n - 1) _ hrec _
              (SimpleIndex.update emptyIndex ((rest.drop HEADER_SIZE).take
                  (unpackU32 ((rest.take HEADER_SIZE).take 4)))
                (pos + HEADER_SIZE + unpackU32 ((rest.take HEADER_SIZE).take 4))
                (unpackU32 ((rest.take HEADER_SIZE).drop 4)))]
          simp [SimpleIndex.update, emptyIndex]
termination_by n => n
decreasing_by
  all_goals
    simp only [HEADER_SIZE] at hshort
    omega

theorem replayAux_entries (rest : List Nat) (pos : Nat) (idx : SimpleIndex) :
    (replayAux rest pos idx).entries =
      idx.entries ++ (replayAux rest pos emptyIndex).entries :=
  replayAuxEntriesBounded rest.length rest (Nat.le_refl _) pos idx

/-! ### Backward scan versus highest offset -/

theorem find?_reverse_eq_getLast_filter (p : List Nat × Nat × Nat → Bool) :
    ∀ (l : List (List Nat × Nat × Nat)),
      l.reverse.find? p = (l.filter p).getLast?
  | [] => rfl
  | a :: l => by
      rw [List.reverse_cons, List.find?_append,
        find?_reverse_eq_getLast_filter p l]
      by_cases hpa : p a
      · rw [List.filter_cons_of_pos hpa, List.find?_singleton, if_pos hpa]
        cases hfl : l.filter p with
        | nil => rfl
        | cons x xs =>
            rw [List.getLast?_cons_cons]
            cases hy : (x :: xs).getLast? with
            | none => simp [List.getLast?_eq_none_iff] at hy
            | some y => rfl
      · rw [List.filter_cons_of_neg hpa, List.find?_singleton, if_neg hpa,
          Option.or_none]

theorem get_eq_getLast?_filter (idx : SimpleIndex) (k : List Nat) :
    idx.get k = ((idx.entries.filter (fun e => e.1 == k)).getLast?).map
      (fun e => (e.2.1, e.2.2)) := by
  unfold SimpleIndex.get
  rw [find?_reverse_eq_getLast_filter]

theorem foldl_pickHigher_sorted : ∀ (l : List (List Nat × Nat × Nat)),
    l.Pairwise (fun a b => a.2.1 < b.2.1) → ∀ (b : Nat × Nat),
    (∀ e ∈ l, b.1 < e.2.1) →
    l.foldl pickHigher (some b) =
      some ((l.getLast?.map (fun e => (e.2.1, e.2.2))).getD b)
  | [], _, b, _ => rfl
  | e :: l, hp, b, hb => by
      rw [List.foldl_cons]
      have hbe : pickHigher (some b) e = some (e.2.1, e.2.2) := by
        simp [pickHigher, hb e (List.mem_cons_self _ _)]
      have hb' : ∀ x ∈ l, e.2.1 < x.2.1 := (List.pairwise_cons.mp hp).1
      rw [hbe, foldl_pickHigher_sorted l hp.of_cons (e.2.1, e.2.2) hb']
      cases l with
      | nil => rfl
      | cons x xs =>
          rw [List.getLast?_cons_cons]
          cases hy : (x :: xs).getLast? with
          | none => simp [List.getLast?_eq_none_iff] at hy
          | some y => rfl

theorem get_eq_lookupHighestOffset (idx : SimpleIndex) (k : List Nat)
    (h : OffsetsIncreasing idx) : idx.get k = lookupHighestOffset idx k := by
  rw [get_eq_getLast?_filter, lookupHighestOffset]
  have hsorted : (idx.entries.filter (fun e => e.1 == k)).Pairwise
      (fun a b => a.2.1 < b.2.1) :=
    List.Pairwise.sublist (List.filter_sublist _) h
  cases hfl : idx.entries.filter (fun e => e.1 == k) with
  | nil => rfl
  | cons x xs =>
      rw [hfl] at hsorted
      rw [List.foldl_cons,
        show pickHigher none x = some (x.2.1, x.2.2) from rfl,
        foldl_pickHigher_sorted xs hsorted.of_cons (x.2.1, x.2.2)
          (List.pairwise_cons.mp hsorted).1]
      cases xs with
      | nil => rfl
      | cons y ys =>
          rw [List.getLast?_cons_cons]
          cases hz : (y :: ys).getLast? with
          | none => simp [List.getLast?_eq_none_iff] at hz
          | some z => rfl

/-! ### Facts about `SimpleIndex.get` and `do_set` -/

theorem get_update_self (idx : SimpleIndex) (k : List Nat) (off len : Nat) :
    (idx.update k off len).get k = some (off, len) := by
  simp [SimpleIndex.update, SimpleIndex.get, List.reverse_append, List.find?_cons]

theorem get_update_other (idx : SimpleIndex) (k k' : List Nat) (off len : Nat)
    (h : k' ≠ k) : (idx.update k' off len).get k = idx.get k := by
  have hb : (k' == k) = false := by simpa using h
  simp [SimpleIndex.update, SimpleIndex.get, List.reverse_append,
    List.find?_cons, hb]

theorem get_entries_append (a b : List (List Nat × Nat × Nat)) (k : List Nat) :
    SimpleIndex.get ⟨a ++ b⟩ k =
      (SimpleIndex.get ⟨b⟩ k).or (SimpleIndex.get ⟨a⟩ k) := by
  cases hfb : b.reverse.find? (fun e => e.1 == k) with
  | none => simp [SimpleIndex.get, List.reverse_append, List.find?_append, hfb]
  | some e => simp [SimpleIndex.get, List.reverse_append, List.find?_append, hfb]

theorem get_mem (idx : SimpleIndex) (k : List Nat) (off len : Nat)
    (h : idx.get k = some (off, len)) : (k, off, len) ∈ idx.entries := by
  unfold SimpleIndex.get at h
  cases hf : idx.entries.reverse.find? (fun e => e.1 == k) with
  | none => rw [hf] at h; simp at h
  | some e =>
      rw [hf] at h
      have hp := List.find?_some hf
      have hm := List.mem_of_find?_eq_some hf
      obtain ⟨e1, e2, e3⟩ := e
      simp only [Option.map_some', Option.some.injEq] at h
      simp only [beq_iff_eq] at hp
      have : (e1, e2, e3) = (k, off, len) := by
        simp at hp h ⊢
        exact ⟨hp, h.1, h.2⟩
      rw [this] at hm
      exact List.mem_reverse.mp hm

theorem do_set_eq (file : List Nat) (idx : SimpleIndex) (k v : List Nat) :
    do_set file idx k v =
      (file ++ encodeRecord (utf8Encode k) (utf8Encode v),
       idx.update (utf8Encode k)
         (file.length + HEADER_SIZE + (utf8Encode k).length)
         (utf8Encode v).length) := by
  simp [do_set, encodeRecord]

theorem WF_emptyIndex (file : List Nat) : WF file emptyIndex := by
  intro e he
  simp [emptyIndex] at he

theorem WF_do_set (file : List Nat) (idx : SimpleIndex) (k v : List Nat)
    (h : WF file idx) : WF (do_set file idx k v).1 (do_set file idx k v).2 := by
  rw [do_set_eq]
  dsimp only
  intro e he
  simp only [SimpleIndex.update, List.mem_append, List.mem_singleton] at he
  have hlen : (file ++ encodeRecord (utf8Encode k) (utf8Encode v)).length =
      file.length + HEADER_SIZE + (utf8Encode k).length
        + (utf8Encode v).length := by
    rw [List.length_append, encodeRecord_length]
    omega
  rcases he with he | he
  · have := h e he
    omega
  · rw [he]
    simp only [hlen]
    omega

theorem read_value_append (file r : List Nat) (off len : Nat)
    (h : off + len ≤ file.length) :
    read_value (file ++ r) off len = read_value file off len := by
  unfold read_value
  rw [List.drop_append_of_le_length (by omega),
    List.take_append_of_le_length (by rw [List.length_drop]; omega)]

/-- Reading back the record just appended by `do_set` yields exactly the
value bytes that were written. -/
theorem do_get_after_do_set (file : List Nat) (idx : SimpleIndex)
    (k v : List Nat) :
    do_get (do_set file idx k v).1 (do_set file idx k v).2 k =
      .found (display (utf8Encode v)) := by
  rw [do_set_eq]
  unfold do_get
  dsimp only
  rw [get_update_self]
  have hgrp : file ++ encodeRecord (utf8Encode k) (utf8Encode v) =
      (file ++ packU32 (utf8Encode k).length ++ packU32 (utf8Encode v).length
        ++ utf8Encode k) ++ utf8Encode v := by
    simp [encodeRecord]
  have hofflen : file.length + HEADER_SIZE + (utf8Encode k).length =
      (file ++ packU32 (utf8Encode k).length ++ packU32 (utf8Encode v).length
        ++ utf8Encode k).length := by
    simp [packU32, HEADER_SIZE]
    omega
  rw [hgrp]
  unfold read_value
  rw [hofflen]
  dsimp only
  rw [List.drop_left, List.take_length]

/-- Appending a record for a different key (as bytes) disturbs neither the
index lookup nor the bytes an existing entry reads. -/
theorem do_get_stable (file : List Nat) (idx : SimpleIndex)
    (kq k' v' : List Nat) (hwf : WF file idx)
    (hne : utf8Encode k' ≠ utf8Encode kq) :
    do_get (do_set file idx k' v').1 (do_set file idx k' v').2 kq =
      do_get file idx kq := by
  rw [do_set_eq]
  unfold do_get
  dsimp only
  rw [get_update_other _ _ _ _ _ hne]
  cases hg : idx.get (utf8Encode kq) with
  | none => rfl
  | some r =>
      obtain ⟨off, len⟩ := r
      have hmem := get_mem _ _ _ _ hg
      have hle := hwf _ hmem
      dsimp only
      rw [read_value_append _ _ _ _ (by simpa using hle)]

theorem do_sets_eq : ∀ (ws : List (List Nat × List Nat)) (file : List Nat)
    (idx : SimpleIndex),
    do_sets (file, idx) ws =
      (file ++ encodeLog (encWrites ws),
       ⟨idx.entries ++ replayIndexEntries file.length (encWrites ws)⟩)
  | [], file, idx => by
      simp [do_sets, encWrites, encodeLog, replayIndexEntries]
  | (k, v) :: ws, file, idx => by
      rw [do_sets]
      dsimp only
      rw [do_set_eq]
      rw [do_sets_eq ws _ _]
      have hflen : (file ++ encodeRecord (utf8Encode k) (utf8Encode v)).length
          = file.length + HEADER_SIZE + (utf8Encode k).length
            + (utf8Encode v).length := by
        rw [List.length_append, encodeRecord_length]
        omega
      rw [hflen]
      simp [encWrites, encodeLog, replayIndexEntries, SimpleIndex.update,
        List.append_assoc]

theorem get_eq_none (idx : SimpleIndex) (k : List Nat)
    (h : ∀ e ∈ idx.entries, e.1 ≠ k) : idx.get k = none := by
  unfold SimpleIndex.get
  rw [List.find?_eq_none.mpr]
  · rfl
  · intro e he
    simpa using h e (List.mem_reverse.mp he)

theorem replayIndexEntries_keys : ∀ (rs : List (List Nat × List Nat))
    (pos : Nat) (e : List Nat × Nat × Nat), e ∈ replayIndexEntries pos rs →
      ∃ r ∈ rs, e.1 = r.1
  | [], _, _, he => by simp [replayIndexEntries] at he
  | (k, v) :: rs, pos, e, he => by
      rw [replayIndexEntries] at he
      rcases List.mem_cons.mp he with he | he
      · exact ⟨(k, v), List.mem_cons_self _ _, by rw [he]⟩
      · obtain ⟨r, hr, hre⟩ := replayIndexEntries_keys rs _ e he
        exact ⟨r, List.mem_cons_of_mem _ hr, hre⟩

/-! ### Further supporting lemmas -/

theorem utf8Encode_injOn (a b : List Nat) (ha : ValidText a) (hb : ValidText b)
    (h : utf8Encode a = utf8Encode b) : a = b := by
  have h1 := utf8Decode?_utf8Encode a ha
  rw [h, utf8Decode?_utf8Encode b hb] at h1
  exact ((Option.some.injEq _ _).mp h1).symm

theorem WF_do_sets : ∀ (ws : List (List Nat × List Nat)) (file : List Nat)
    (idx : SimpleIndex), WF file idx →
    WF (do_sets (file, idx) ws).1 (do_sets (file, idx) ws).2
  | [], _, _, h => h
  | (k, v) :: ws, file, idx, h => by
      rw [do_sets]
      dsimp only
      exact WF_do_sets ws _ _ (WF_do_set _ _ _ _ h)

theorem do_get_stable_sets : ∀ (ws : List (List Nat × List Nat))
    (file : List Nat) (idx : SimpleIndex) (kq : List Nat), WF file idx →
    (∀ w ∈ ws, utf8Encode w.1 ≠ utf8Encode kq) →
    do_get (do_sets (file, idx) ws).1 (do_sets (file, idx) ws).2 kq
      = do_get file idx kq
  | [], _, _, _, _, _ => rfl
  | (k', v') :: ws, file, idx, kq, hwf, hne => by
      rw [do_sets]
      dsimp only
      rw [do_get_stable_sets ws _ _ kq (WF_do_set _ _ _ _ hwf)
        (fun w hw => hne w (List.mem_cons_of_mem _ hw))]
      exact do_get_stable file idx kq k' v' hwf (hne _ (List.mem_cons_self _ _))

theorem encodeLog_append : ∀ (a b : List (List Nat × List Nat)),
    encodeLog (a ++ b) = encodeLog a ++ encodeLog b
  | [], b => by simp [encodeLog]
  | (k, v) :: a, b => by
      rw [List.cons_append, encodeLog, encodeLog, encodeLog_append a b,
        List.append_assoc]

theorem RecordsOK_encWrites (ws : List (List Nat × List Nat))
    (h : WritesOK ws) : RecordsOK (encWrites ws) := by
  intro r hr
  obtain ⟨w, hw, hwr⟩ := List.mem_map.mp hr
  obtain ⟨h1, h2⟩ := h w hw
  constructor
  · rw [← hwr]; exact h1
  · rw [← hwr]; exact h2

theorem replayAuxCountBounded : ∀ (n : Nat) (rest : List Nat),
    rest.length ≤ n → ∀ (pos : Nat) (idx : SimpleIndex),
    (replayAux rest pos idx).entries.length
      ≤ idx.entries.length + rest.length / HEADER_SIZE
  | n, rest, hn, pos, idx => by
    by_cases hshort : rest.length < HEADER_SIZE
    · rw [replayAux_short _ _ _ hshort]
      simp only [HEADER_SIZE]
      omega
    · by_cases hk : ((rest.drop HEADER_SIZE).take
          (unpackU32 ((rest.take HEADER_SIZE).take 4))).length
        < unpackU32 ((rest.take HEADER_SIZE).take 4)
      · rw [replayAux_stop_key _ _ _ (by omega) hk]
        simp only [HEADER_SIZE]
        omega
      · by_cases hv : ((rest.drop (HEADER_SIZE
              + unpackU32 ((rest.take HEADER_SIZE).take 4))).take
            (unpackU32 ((rest.take HEADER_SIZE).drop 4))).length
          < unpackU32 ((rest.take HEADER_SIZE).drop 4)
        · rw [replayAux_stop_val _ _ _ (by omega) hk hv]
          simp only [HEADER_SIZE]
          omega
        · have htot : HEADER_SIZE + unpackU32 ((rest.take HEADER_SIZE).take 4)
              + unpackU32 ((rest.take HEADER_SIZE).drop 4) ≤ rest.length := by
            simp only [List.length_take, List.length_drop] at hk hv
            omega
          have hrec : (rest.drop (HEADER_SIZE
              + unpackU32 ((rest.take HEADER_SIZE).take 4)
              + unpackU32 ((rest.take HEADER_SIZE).drop 4))).length ≤ n - 1 := by
            simp only [List.length_drop, HEADER_SIZE] at htot hshort hn ⊢
            omega
          rw [replayAux_step rest pos idx _ _ rfl rfl htot]
          have hb := replayAuxCountBounded (n - 1) _ hrec
            (pos + HEADER_SIZE + unpackU32 ((rest.take HEADER_SIZE).take 4)
              + unpackU32 ((rest.take HEADER_SIZE).drop 4))
            (idx.update ((rest.drop HEADER_SIZE).take
                (unpackU32 ((rest.take HEADER_SIZE).take 4)))
              (pos + HEADER_SIZE + unpackU32 ((rest.take HEADER_SIZE).take 4))
              (unpackU32 ((rest.take HEADER_SIZE).drop 4)))
          have hup : (SimpleIndex.update idx ((rest.drop HEADER_SIZE).take
                (unpackU32 ((rest.take HEADER_SIZE).take 4)))
              (pos + HEADER_SIZE + unpackU32 ((rest.take HEADER_SIZE).take 4))
              (unpackU32 ((rest.take HEADER_SIZE).drop 4))).entries.length
              = idx.entries.length + 1 := by
            simp [SimpleIndex.update]
          rw [hup] at hb
          simp only [List.length_drop, HEADER_SIZE] at hb htot hshort ⊢
          omega
termination_by n => n
decreasing_by
  all_goals
    simp only [HEADER_SIZE] at hshort
    omega

theorem do_sets_append : ∀ (a b : List (List Nat × List Nat))
    (st : List Nat × SimpleIndex),
    do_sets st (a ++ b) = do_sets (do_sets st a) b
  | [], b, st => rfl
  | (k, v) :: a, b, st => by
      rw [List.cons_append, do_sets, do_sets, do_sets_append a b]

/-! ### The claims -/

/-- C1 — Round-trip: for every key and value, performing `put(key, value)`
(`do_set`) and then `get(key)` (`do_get`) on the resulting state returns
exactly the value that was written: text-identical for UTF-8-encodable
input, and on bytes that are not valid UTF-8 the fallback `latin-1`
decoding is used, which is byte-identical. -/
theorem claim_C1_round_trip :
    (∀ (file : List Nat) (idx : SimpleIndex) (key value : List Nat),
      ValidText value →
      do_get (do_set file idx key value).1 (do_set file idx key value).2 key
        = .found value) ∧
    (∀ bs : List Nat, utf8Decode? bs = none →
      display bs = latin1Decode bs ∧ latin1Decode bs = bs) := by
  constructor
  · intro file idx key value hv
    rw [do_get_after_do_set, display_utf8Encode _ hv]
  · intro bs h
    exact ⟨by rw [display, h], rfl⟩

theorem claim_C1_round_trip_witness :
    do_get (do_set [] emptyIndex [102, 111, 111] [98, 97, 114]).1
        (do_set [] emptyIndex [102, 111, 111] [98, 97, 114]).2 [102, 111, 111]
      = .found [98, 97, 114] ∧
    (display [255, 254] = latin1Decode [255, 254]
      ∧ latin1Decode [255, 254] = [255, 254]) :=
  ⟨claim_C1_round_trip.1 [] emptyIndex [102, 111, 111] [98, 97, 114]
      (by decide),
   claim_C1_round_trip.2 [255, 254] (by simp [utf8Decode?])⟩

/-- C2 — Last-write-wins: after a sequence of writes whose last write to
key `k` is `v` (later writes, if any, go to other keys), `get(k)` returns
`v`. The initial state is any state whose index points inside the file. -/
theorem claim_C2_last_write_wins (file : List Nat) (idx : SimpleIndex)
    (hwf : WF file idx) (ws1 ws2 : List (List Nat × List Nat))
    (k v : List Nat) (hkt : ValidText k) (hvt : ValidText v)
    (hws2 : ∀ w ∈ ws2, ValidText w.1 ∧ w.1 ≠ k) :
    do_get (do_sets (file, idx) (ws1 ++ (k, v) :: ws2)).1
      (do_sets (file, idx) (ws1 ++ (k, v) :: ws2)).2 k = .found v := by
  rw [do_sets_append]
  have hwf1 := WF_do_sets ws1 file idx hwf
  rw [do_sets]
  have hne : ∀ w ∈ ws2, utf8Encode w.1 ≠ utf8Encode k := by
    intro w hw hcontra
    exact (hws2 w hw).2 (utf8Encode_injOn w.1 k (hws2 w hw).1 hkt hcontra)
  rw [do_get_stable_sets ws2 _ _ k
    (WF_do_set _ _ _ _ hwf1) hne]
  rw [do_get_after_do_set, display_utf8Encode _ hvt]

theorem claim_C2_last_write_wins_witness :
    do_get (do_sets ([], emptyIndex)
        ([([107], [49])] ++ ([107], [50]) :: [([106], [51])])).1
      (do_sets ([], emptyIndex)
        ([([107], [49])] ++ ([107], [50]) :: [([106], [51])])).2 [107]
      = .found [50] :=
  claim_C2_last_write_wins [] emptyIndex (fun e he => by simp [emptyIndex] at he)
    [([107], [49])] [([106], [51])] [107] [50] (by decide) (by decide)
    (by decide)

/-- C3 — Crash-tolerant replay: truncating a well-formed log at any byte
offset at or after the start of its final record and strictly before its
end, `replay_log` recovers exactly the fully contained records, terminates
without error, and records no entry for the partial tail record. -/
theorem claim_C3_crash_tolerant_replay (rs : List (List Nat × List Nat))
    (k v : List Nat) (hrs : RecordsOK rs) (hk : k.length < 4294967296)
    (hv : v.length < 4294967296) (t : Nat)
    (h1 : (encodeLog rs).length ≤ t)
    (h2 : t < (encodeLog rs).length + (encodeRecord k v).length) :
    replay_log ((encodeLog (rs ++ [(k, v)])).take t) emptyIndex
      = ⟨replayIndexEntries 0 rs⟩ := by
  rw [encodeLog_append,
    show encodeLog [(k, v)] = encodeRecord k v ++ [] from rfl,
    List.append_nil, List.take_append_eq_append_take,
    List.take_of_length_le h1]
  rw [replay_log, replayAux_encodeLog rs hrs _ 0 emptyIndex,
    replayAux_truncated k v _ _ _ hk hv (by omega)]
  simp [emptyIndex]

theorem claim_C3_crash_tolerant_replay_witness :
    replay_log ((encodeLog ([([1], [2])] ++ [([3], [4, 5])])).take 15)
        emptyIndex
      = ⟨replayIndexEntries 0 [([1], [2])]⟩ :=
  claim_C3_crash_tolerant_replay [([1], [2])] [3] [4, 5] (by decide)
    (by decide) (by decide) 15 (by decide) (by decide)

/-- C4 — Restart equivalence: for every sequence of puts executed from an
empty log, rebuilding a fresh index with `replay_log` over the resulting
file yields precisely the live index — in particular every lookup agrees,
with the same value offset and value length. -/
theorem claim_C4_restart_equivalence (ws : List (List Nat × List Nat))
    (h : WritesOK ws) :
    replay_log (do_sets ([], emptyIndex) ws).1 emptyIndex
        = (do_sets ([], emptyIndex) ws).2 ∧
    ∀ k : List Nat,
      (replay_log (do_sets ([], emptyIndex) ws).1 emptyIndex).get k
        = (do_sets ([], emptyIndex) ws).2.get k := by
  have hmain : replay_log (do_sets ([], emptyIndex) ws).1 emptyIndex
      = (do_sets ([], emptyIndex) ws).2 := by
    rw [do_sets_eq ws [] emptyIndex]
    dsimp only
    rw [List.nil_append, replay_log_encodeLog _ (RecordsOK_encWrites ws h)]
    simp [emptyIndex]
  exact ⟨hmain, fun k => by rw [hmain]⟩

theorem claim_C4_restart_equivalence_witness :
    replay_log (do_sets ([], emptyIndex) [([107], [49]), ([107], [50])]).1
        emptyIndex
      = (do_sets ([], emptyIndex) [([107], [49]), ([107], [50])]).2 ∧
    ∀ k : List Nat,
      (replay_log (do_sets ([], emptyIndex)
          [([107], [49]), ([107], [50])]).1 emptyIndex).get k
        = (do_sets ([], emptyIndex) [([107], [49]), ([107], [50])]).2.get k :=
  claim_C4_restart_equivalence [([107], [49]), ([107], [50])] (by decide)

/-- C5 — Idempotent replay: replaying the same log twice into the same
(initially empty) index leaves every lookup identical to a single replay,
even though the raw entry count doubles. -/
theorem claim_C5_idempotent_replay (file : List Nat) (k : List Nat) :
    (replay_log file (replay_log file emptyIndex)).get k
      = (replay_log file emptyIndex).get k ∧
    (replay_log file (replay_log file emptyIndex)).entries.length
      = 2 * (replay_log file emptyIndex).entries.length := by
  have h1 : (replay_log file (replay_log file emptyIndex)).entries
      = (replay_log file emptyIndex).entries
        ++ (replay_log file emptyIndex).entries := by
    rw [replay_log, replayAux_entries]
    rfl
  constructor
  · have h2 : (replay_log file (replay_log file emptyIndex)).get k
        = SimpleIndex.get ⟨(replay_log file emptyIndex).entries
            ++ (replay_log file emptyIndex).entries⟩ k := by
      rw [← h1]
    rw [h2, get_entries_append, Option.or_self]
  · rw [h1, List.length_append]
    omega

/-- C6 — Backward-scan / highest-offset equivalence: on an index whose
entry offsets strictly increase in append order, the backward scan of
`SimpleIndex.get` returns exactly the matching entry with the highest
offset. -/
theorem claim_C6_backward_scan_highest_offset (idx : SimpleIndex)
    (h : OffsetsIncreasing idx) (k : List Nat) :
    idx.get k = lookupHighestOffset idx k :=
  get_eq_lookupHighestOffset idx k h

theorem claim_C6_backward_scan_highest_offset_witness :
    SimpleIndex.get ⟨[([1], 11, 3), ([2], 25, 4), ([1], 40, 2)]⟩ [1]
      = lookupHighestOffset ⟨[([1], 11, 3), ([2], 25, 4), ([1], 40, 2)]⟩ [1] :=
  claim_C6_backward_scan_highest_offset
    ⟨[([1], 11, 3), ([2], 25, 4), ([1], 40, 2)]⟩ (by decide) [1]

/-- C7 — Put atomicity on failure: if any of the I/O steps of `do_set`
(header write, key write, value write, flush, fsync) raises, the in-memory
index is left unmodified, because `index.update` runs only after all of
them; with no failure the fallible path agrees with `do_set`. -/
theorem claim_C7_put_atomic_on_failure :
    (∀ (failAt : Nat → Bool) (file : List Nat) (idx : SimpleIndex)
      (k v : List Nat) (f' : List Nat) (i' : SimpleIndex),
      do_set_fallible failAt file idx k v = .error (f', i') → i' = idx) ∧
    (∀ (file : List Nat) (idx : SimpleIndex) (k v : List Nat),
      do_set_fallible (fun _ => false) file idx k v
        = .ok (do_set file idx k v)) := by
  constructor
  · intro failAt file idx k v f' i' h
    unfold do_set_fallible at h
    by_cases h0 : failAt 0
    · simp [h0] at h
      exact h.2.symm
    · by_cases h1 : failAt 1
      · simp [h0, h1] at h
        exact h.2.symm
      · by_cases h2 : failAt 2
        · simp [h0, h1, h2] at h
          exact h.2.symm
        · by_cases h3 : failAt 3
          · simp [h0, h1, h2, h3] at h
            exact h.2.symm
          · by_cases h4 : failAt 4
            · simp [h0, h1, h2, h3, h4] at h
              exact h.2.symm
            · simp [h0, h1, h2, h3, h4] at h
  · intro file idx k v
    rfl

theorem claim_C7_put_atomic_on_failure_witness :
    do_set_fallible (fun n => n == 2) [] emptyIndex [107] [118]
        = .error ([0, 0, 0, 1, 0, 0, 0, 1, 107], emptyIndex) ∧
    ([0, 0, 0, 1, 0, 0, 0, 1, 107], emptyIndex).2 = emptyIndex := by
  refine ⟨rfl, ?_⟩
  exact claim_C7_put_atomic_on_failure.1 (fun n => n == 2) [] emptyIndex
    [107] [118] [0, 0, 0, 1, 0, 0, 0, 1, 107] emptyIndex rfl

/-- C8 — Not-found is distinguishable from an empty value: a key never
written yields the distinguished `NOTFOUND` outcome, while writing the
empty string and reading it back yields `found ""`, a different outcome. -/
theorem claim_C8_not_found_vs_empty (ws : List (List Nat × List Nat))
    (k : List Nat) (hkt : ValidText k)
    (hws : ∀ w ∈ ws, ValidText w.1 ∧ w.1 ≠ k) :
    do_get (do_sets ([], emptyIndex) ws).1 (do_sets ([], emptyIndex) ws).2 k
        = .notFound ∧
    (∀ (file : List Nat) (idx : SimpleIndex),
      do_get (do_set file idx k []).1 (do_set file idx k []).2 k
        = .found []) ∧
    GetResult.found [] ≠ GetResult.notFound := by
  refine ⟨?_, ?_, by simp⟩
  · have hne : ∀ w ∈ ws, utf8Encode w.1 ≠ utf8Encode k := by
      intro w hw hcontra
      exact (hws w hw).2 (utf8Encode_injOn w.1 k (hws w hw).1 hkt hcontra)
    rw [do_get_stable_sets ws [] emptyIndex k
      (fun e he => by simp [emptyIndex] at he) hne]
    rfl
  · intro file idx
    rw [do_get_after_do_set,
      display_utf8Encode [] (fun c hc => by simp at hc)]

theorem claim_C8_not_found_vs_empty_witness :
    do_get (do_sets ([], emptyIndex) [([106], [49])]).1
        (do_sets ([], emptyIndex) [([106], [49])]).2 [107] = .notFound ∧
    (∀ (file : List Nat) (idx : SimpleIndex),
      do_get (do_set file idx [107] []).1 (do_set file idx [107] []).2 [107]
        = .found []) ∧
    GetResult.found [] ≠ GetResult.notFound :=
  claim_C8_not_found_vs_empty [([106], [49])] [107] (by decide) (by decide)

/-- C9 (counterexample) — the claim "the read performed by `get` reads
exactly `length` bytes and fails with an I/O error when fewer are
available" is false on the code: with an index entry of length 5 against
an empty file, `do_get` returns a found (empty) result and the read
returns 0 bytes, not 5 and not an error. -/
theorem claim_C9_counterexample :
    do_get [] ⟨[([107], 0, 5)]⟩ [107] = .found []
      ∧ (read_value [] 0 5).length ≠ 5 := by
  constructor
  · simp [do_get, SimpleIndex.get, utf8Encode, utf8EncodeChar, List.find?,
      read_value, display, utf8Decode?]
  · decide

/-- C9 (amended) — the read performed by `get` starts at `offset` on an
independent handle and returns the first `min(length, available)` bytes:
on a truncated or corrupted file the shorter byte sequence is decoded and
returned as a found result, without an I/O error. -/
theorem claim_C9_short_read_returns_short (file : List Nat)
    (idx : SimpleIndex) (k : List Nat) (off len : Nat)
    (h : idx.get (utf8Encode k) = some (off, len)) :
    do_get file idx k = .found (display (read_value file off len)) ∧
    (read_value file off len).length = min len (file.length - off) := by
  constructor
  · unfold do_get
    dsimp only
    rw [h]
  · simp [read_value]

theorem claim_C9_short_read_returns_short_witness :
    do_get [1, 2] ⟨[([107], 0, 5)]⟩ [107]
        = .found (display (read_value [1, 2] 0 5)) ∧
    (read_value [1, 2] 0 5).length = min 5 ([1, 2].length - 0) :=
  claim_C9_short_read_returns_short [1, 2] ⟨[([107], 0, 5)]⟩ [107] 0 5
    (by decide)

/-- C10 — Replay totality: `replay_log` is a total function on arbitrary
byte contents (consuming a full 8-byte header always decodes, every short
read exits the loop, and its recursion strictly consumes the file), and
each recorded entry consumes at least `HEADER_SIZE` bytes, so the number
of entries grows by at most `file.length / HEADER_SIZE`. -/
theorem claim_C10_replay_totality (file : List Nat) (idx : SimpleIndex) :
    (replay_log file idx).entries.length
      ≤ idx.entries.length + file.length / HEADER_SIZE :=
  replayAuxCountBounded file.length file (Nat.le_refl _) 0 idx
